import Mathlib

/-!
Verification development for the OEE tag subsystem (src/OEE.py).

The Python source works over dynamic, loosely typed nested dictionaries,
as delivered by the tag source (plc.tags_json).  We embed those payloads
as the JSON-like type JVal below; dictionary indexing that can raise a
KeyError or TypeError in Python is embedded as Option-returning lookup,
and a function body whose loop can raise is embedded as an
Option-returning function (none = the extraction aborts and the caller
gets no catalog, matching the try/except wrapper in get_tags_from_plc).
-/

namespace OEE

/-- embedding of the dynamic values occurring in the raw tag payload. -/
inductive JVal where
  | jstr (s : String)
  | jnum (n : Int)
  | jbool (b : Bool)
  | jarr (xs : List JVal)
  | jobj (fields : List (String × JVal))
deriving Repr

/-- first-match association lookup, the embedding of Python dict access
(dict keys are unique, so first-match agrees with dict semantics). -/
def lookupFirst : List (String × JVal) → String → Option JVal
  | [], _ => none
  | (k, v) :: fs, key => if k = key then some v else lookupFirst fs key

/-- embedding of `d[k]`: fails (none) when the value is not a dict or the
key is absent. -/
def jget (v : JVal) (k : String) : Option JVal :=
  match v with
  | JVal.jobj fs => lookupFirst fs k
  | _ => none

/-- embedding of `d.get(k, default)`: requires a dict, never fails on a
missing key. -/
def jgetOrD (v : JVal) (k : String) (d : JVal) : Option JVal :=
  match v with
  | JVal.jobj fs => some ((lookupFirst fs k).getD d)
  | _ => none

/-- embedding of the Python comparison `v == s` for a string literal s:
true only when v is the same string (comparing a non-string to a string
is False in Python, not an error). -/
def jeqS (v : JVal) (s : String) : Bool :=
  match v with
  | JVal.jstr t => t = s
  | _ => false

/-- character-list test: pre is an initial run of l. -/
def listPre : List Char → List Char → Bool
  | [], _ => true
  | _ :: _, [] => false
  | a :: as, b :: bs => a = b && listPre as bs

/-- embedding of `name.startswith('_') or name.startswith('ZZZZZZZZZZ')`
from extract_child_data_types. -/
def hiddenName (s : String) : Bool :=
  listPre "_".data s.data || listPre "ZZZZZZZZZZ".data s.data

/-- one catalog entry: the dict
`{'data_type': ..., 'dimensions': ..., 'structure': ...}` built by the
extractor.  The first two fields hold whatever dynamic value the code
stores there; the structure flag is always a Python bool literal. -/
structure RawTagMeta where
  data_type : JVal
  dimensions : JVal
  «structure» : Bool
deriving Repr

/-- embedding of Python dict assignment `d[k] = v` on an insertion-ordered
dict: overwrite in place when the key exists, else append. -/
def dinsert : List (String × RawTagMeta) → String → RawTagMeta → List (String × RawTagMeta)
  | [], k, v => [(k, v)]
  | (k', v') :: rest, k, v =>
      if k' = k then (k', v) :: rest else (k', v') :: dinsert rest k v

theorem lookupFirst_sizeOf {fs : List (String × JVal)} {key : String} {w : JVal}
    (h : lookupFirst fs key = some w) : sizeOf w < sizeOf fs := by
  induction fs with
  | nil => simp [lookupFirst] at h
  | cons f rest ih =>
    obtain ⟨k, v⟩ := f
    by_cases hk : k = key
    · simp [lookupFirst, hk] at h
      subst h
      simp
      omega
    · simp [lookupFirst, hk] at h
      have := ih h
      simp
      omega

theorem jget_sizeOf {v : JVal} {k : String} {w : JVal}
    (h : jget v k = some w) : sizeOf w < sizeOf v := by
  cases v <;> simp [jget] at h
  case jobj fs =>
    have := lookupFirst_sizeOf h
    simp
    omega

mutual

/-- embedding of extract_child_data_types: walks structure.items(),
accumulating into the catalog; none models an exception escaping to the
caller of get_tags_from_plc. -/
def extract_child_data_types (struc : JVal) (array : List (String × RawTagMeta))
    (name : String) : Option (List (String × RawTagMeta)) :=
  match struc with
  | JVal.jobj fields => extractChildGo fields array name
  | _ => none
termination_by sizeOf struc
decreasing_by simp <;> omega

/-- loop body of extract_child_data_types over the remaining items. -/
def extractChildGo (fields : List (String × JVal)) (array : List (String × RawTagMeta))
    (name : String) : Option (List (String × RawTagMeta)) :=
  match fields with
  | [] => some array
  | (child_name, child_info) :: rest =>
    match hdt : jget child_info "data_type" with
    | none => none
    | some child_data_type =>
      match jget child_info "tag_type" with
      | none => none
      | some child_tag_type =>
        match jgetOrD child_info "array" (JVal.jnum 0) with
        | none => none
        | some child_array_length =>
          if hiddenName child_name then extractChildGo rest array name
          else
            let full_tag_name := name ++ "." ++ child_name
            if jeqS child_tag_type "atomic" then
              extractChildGo rest
                (dinsert array full_tag_name
                  ⟨child_data_type,
                   JVal.jarr [child_array_length, JVal.jnum 0, JVal.jnum 0], false⟩) name
            else if jeqS child_tag_type "struct" then
              match jget child_data_type "name" with
              | none => none
              | some nm =>
                let array2 :=
                  if jeqS nm "STRING" then
                    dinsert array full_tag_name
                      ⟨nm, JVal.jarr [child_array_length, JVal.jnum 0, JVal.jnum 0], false⟩
                  else
                    dinsert array full_tag_name
                      ⟨nm, JVal.jarr [child_array_length, JVal.jnum 0, JVal.jnum 0], true⟩
                if jeqS nm "STRING" then extractChildGo rest array2 name
                else
                  match hit : jget child_data_type "internal_tags" with
                  | none => none
                  | some internal =>
                    match extract_child_data_types internal array2 full_tag_name with
                    | none => none
                    | some array3 => extractChildGo rest array3 name
            else extractChildGo rest array name
termination_by sizeOf fields
decreasing_by
  all_goals try (simp <;> omega)
  all_goals
    (have s1 := jget_sizeOf hdt
     have s2 := jget_sizeOf hit
     simp <;> omega)

end

/-- loop of get_tags_from_plc over the top-level items of plc.tags_json. -/
def getTagsGo : List (String × JVal) → List (String × RawTagMeta) →
    Option (List (String × RawTagMeta))
  | [], tag_list => some tag_list
  | (tag_name, tag_info) :: rest, tag_list =>
    match jget tag_info "data_type" with
    | none => none
    | some tag_data_type =>
      match jget tag_info "tag_type" with
      | none => none
      | some tag_type =>
        match jgetOrD tag_info "dimensions"
            (JVal.jarr [JVal.jnum 0, JVal.jnum 0, JVal.jnum 0]) with
        | none => none
        | some tag_dimensions =>
          if jeqS tag_type "atomic" then
            getTagsGo rest (dinsert tag_list tag_name ⟨tag_data_type, tag_dimensions, false⟩)
          else if jeqS tag_type "struct" then
            match jget tag_data_type "name" with
            | none => none
            | some nm =>
              let tag_list2 :=
                if jeqS nm "STRING" then dinsert tag_list tag_name ⟨nm, tag_dimensions, false⟩
                else dinsert tag_list tag_name ⟨nm, tag_dimensions, true⟩
              if jeqS nm "STRING" then getTagsGo rest tag_list2
              else
                match jget tag_data_type "internal_tags" with
                | none => none
                | some internal =>
                  match extract_child_data_types internal tag_list2 tag_name with
                  | none => none
                  | some tag_list3 => getTagsGo rest tag_list3
          else getTagsGo rest tag_list

/-- embedding of get_tags_from_plc, taking the already fetched payload
(the items of plc.tags_json, in order); none models the except branch
that prints the error and returns None. -/
def get_tags_from_plc (data : List (String × JVal)) : Option (List (String × RawTagMeta)) :=
  getTagsGo data []

/-- payload transformer used to state the hidden-children property: drop
every child member whose name the extractor treats as hidden. -/
def jfilterHidden : JVal → JVal
  | JVal.jobj fields => JVal.jobj (fields.filter (fun p => !hiddenName p.1))
  | v => v

/-- the processing of one child member of extract_child_data_types in
isolation: none when one of its dictionary accesses fails, otherwise the
catalog the loop continues with after this child. -/
def childStep (cn : String) (ci : JVal) (array : List (String × RawTagMeta))
    (name : String) : Option (List (String × RawTagMeta)) :=
  match jget ci "data_type" with
  | none => none
  | some child_data_type =>
    match jget ci "tag_type" with
    | none => none
    | some child_tag_type =>
      match jgetOrD ci "array" (JVal.jnum 0) with
      | none => none
      | some child_array_length =>
        if hiddenName cn then some array
        else
          let full_tag_name := name ++ "." ++ cn
          if jeqS child_tag_type "atomic" then
            some (dinsert array full_tag_name
              ⟨child_data_type, JVal.jarr [child_array_length, JVal.jnum 0, JVal.jnum 0], false⟩)
          else if jeqS child_tag_type "struct" then
            match jget child_data_type "name" with
            | none => none
            | some nm =>
              let array2 :=
                if jeqS nm "STRING" then
                  dinsert array full_tag_name
                    ⟨nm, JVal.jarr [child_array_length, JVal.jnum 0, JVal.jnum 0], false⟩
                else
                  dinsert array full_tag_name
                    ⟨nm, JVal.jarr [child_array_length, JVal.jnum 0, JVal.jnum 0], true⟩
              if jeqS nm "STRING" then some array2
              else
                match jget child_data_type "internal_tags" with
                | none => none
                | some internal => extract_child_data_types internal array2 full_tag_name
          else some array

/-- concrete payload with one visible atomic child and two hidden
children, both of which are structures with further members. -/
def hiddenExample : JVal := JVal.jobj [
  ("Good", JVal.jobj [("data_type", JVal.jstr "DINT"), ("tag_type", JVal.jstr "atomic")]),
  ("_internal", JVal.jobj [
    ("data_type", JVal.jobj [
      ("name", JVal.jstr "HidT"),
      ("internal_tags", JVal.jobj [
        ("X", JVal.jobj [("data_type", JVal.jstr "DINT"), ("tag_type", JVal.jstr "atomic")])])]),
    ("tag_type", JVal.jstr "struct")]),
  ("ZZZZZZZZZZreserved", JVal.jobj [
    ("data_type", JVal.jobj [
      ("name", JVal.jstr "ResT"),
      ("internal_tags", JVal.jobj [
        ("Y", JVal.jobj [("data_type", JVal.jstr "SINT"), ("tag_type", JVal.jstr "atomic")])])]),
    ("tag_type", JVal.jstr "struct")])]

/-- concrete string-typed structured child description that does supply
an internal_tags collection. -/
def stringExample : JVal := JVal.jobj [
  ("data_type", JVal.jobj [
    ("name", JVal.jstr "STRING"),
    ("internal_tags", JVal.jobj [
      ("LEN", JVal.jobj [("data_type", JVal.jstr "DINT"), ("tag_type", JVal.jstr "atomic")]),
      ("DATA", JVal.jobj [("data_type", JVal.jstr "SINT"), ("tag_type", JVal.jstr "atomic")])])]),
  ("tag_type", JVal.jstr "struct")]

/-- concrete top-level entry whose declared kind is neither atomic nor
struct. -/
def bogusKindExample : JVal :=
  JVal.jobj [("data_type", JVal.jstr "DINT"), ("tag_type", JVal.jstr "bogus")]

/-!
The GUI layer (format_dimension_label, build_tag_tree_model and the
widgets downstream) consumes catalogs whose metadata is well typed, as
recorded in the source annotations (`dims: list[int]`, string data
types).  We embed that layer over the typed catalog entry below.
-/

/-- one typed catalog entry, as consumed by build_tag_tree_model:
the fields of the metadata dict with their annotated types. -/
structure TagMeta where
  data_type : String
  dimensions : List Int
  «structure» : Bool
deriving Repr, DecidableEq

/-- embedding of ','.join applied to a list of strings. -/
def joinComma : List String → String
  | [] => ""
  | [x] => x
  | x :: xs => x ++ "," ++ joinComma xs

/-- embedding of format_dimension_label. -/
def format_dimension_label (name : String) (dims : List Int) : String :=
  if dims = [0, 0, 0] then name
  else name ++ "[" ++ joinComma ((dims.filter (fun d => d > 0)).map toString) ++ "]"

/-- the data a QStandardItem of the tag tree carries: its display label,
the Qt.UserRole payload set only on leaves, and the tooltip. -/
structure TagItem where
  label : String
  userData : Option (String × List Int)
  toolTip : Option String
deriving Repr, DecidableEq

/-- a node of the tag tree.  build_tag_tree_model keys its node_map by a
cumulative path string built with
`current_path = f"{current_path}.{part}" if current_path else part`;
the empty string is falsy, so while the cumulative path is still empty
the segment replaces it, and a leading empty segment collapses: the
paths ".A" and "A" reach the same node_map key "A".  A node stores its
node_map key, its item, and its children in appendRow order; node_map
is one global dictionary, so a key is found wherever its node lives. -/
inductive TagTree where
  | node (key : String) (item : TagItem) (children : List TagTree)
deriving Repr

def TagTree.keyOf : TagTree → String
  | TagTree.node k _ _ => k

def TagTree.itemOf : TagTree → TagItem
  | TagTree.node _ it _ => it

def TagTree.childrenOf : TagTree → List TagTree
  | TagTree.node _ _ cs => cs

/-- split a character list at dots, the embedding of str.split('.')
(an empty string yields one empty part, as in Python). -/
def splitDot : List Char → List (List Char)
  | [] => [[]]
  | c :: cs =>
      if c = '.' then [] :: splitDot cs
      else
        match splitDot cs with
        | [] => [[c]]
        | g :: gs => (c :: g) :: gs

/-- the segment chain of a full dotted path, full_path.split('.'). -/
def chainOf (k : String) : List String :=
  (splitDot k.data).map fun g => String.mk g

/-- embedding of the cumulative path update of build_tag_tree_model,
`current_path = f"{current_path}.{part}" if current_path else part`:
an empty current path is falsy and is replaced by the bare segment. -/
def pyJoin (current_path part : String) : String :=
  if current_path = "" then part else current_path ++ "." ++ part

/-- the QStandardItem created when a cumulative path is first
materialized at the given segment: the dimension-formatted label, the
UserRole payload and the tooltip exactly when that position is the
final segment of the entry being inserted. -/
def mkPyItem (part : String) (is_leaf : Bool) (full_path : String) (dims : List Int)
    (data_type : String) : TagItem :=
  { label := if is_leaf then format_dimension_label part dims else part
    userData := if is_leaf then some (full_path, dims) else none
    toolTip := if is_leaf then some (full_path ++ "(" ++ data_type ++ ")") else none }

/-- lookup of the item stored under a node_map key, searching the whole
tree: node_map is one flat dictionary over all nodes. -/
def findKeyF : List TagTree → String → Option TagItem
  | [], _ => none
  | TagTree.node nk nit ncs :: ts, k =>
      if nk = k then some nit
      else
        match findKeyF ncs k with
        | some it => some it
        | none => findKeyF ts k
termination_by f _ => sizeOf f
decreasing_by all_goals (simp <;> omega)

/-- append a fresh node as the last child of the node carrying the given
key (parent.appendRow); none when no node carries the key. -/
def appendAtF : List TagTree → String → TagTree → Option (List TagTree)
  | [], _, _ => none
  | TagTree.node nk nit ncs :: ts, pk, newt =>
      if nk = pk then some (TagTree.node nk nit (ncs ++ [newt]) :: ts)
      else
        match appendAtF ncs pk newt with
        | some ncs2 => some (TagTree.node nk nit ncs2 :: ts)
        | none =>
          match appendAtF ts pk newt with
          | some ts2 => some (TagTree.node nk nit ncs :: ts2)
          | none => none
termination_by f _ _ => sizeOf f
decreasing_by all_goals (simp <;> omega)

/-- append a node under a parent key, or at top level when the parent is
the invisible root (none).  The getD fallback is unreachable in the
builder: the parent key is always a key already in the tree. -/
def appendUnder (forest : List TagTree) (parent : Option String) (t : TagTree) :
    List TagTree :=
  match parent with
  | none => forest ++ [t]
  | some pk => (appendAtF forest pk t).getD forest

/-- embedding of the inner loop of build_tag_tree_model for one catalog
entry: walk the parts carrying the evolving cumulative path and the key
of the current parent node (none for the invisible root).  A cumulative
key already in node_map creates nothing, even at the final segment (so
that entry's payload is silently dropped); a missing key appends a
fresh node under the current parent and records it in node_map. -/
def insertEntry (full_path : String) (dims : List Int) (data_type : String) :
    List String → String → Option String → List TagTree → List TagTree
  | [], _, _, forest => forest
  | part :: rest, current_path, parent, forest =>
      let current_path2 := pyJoin current_path part
      if (findKeyF forest current_path2).isSome then
        insertEntry full_path dims data_type rest current_path2 (some current_path2) forest
      else
        insertEntry full_path dims data_type rest current_path2 (some current_path2)
          (appendUnder forest parent
            (TagTree.node current_path2
              (mkPyItem part rest.isEmpty full_path dims data_type) []))

/-- embedding of build_tag_tree_model: fold the catalog entries in
catalog order, each walked from the empty cumulative path under the
invisible root. -/
def build_tag_tree_model (tag_dict : List (String × TagMeta)) : List TagTree :=
  tag_dict.foldl
    (fun forest kv =>
      insertEntry kv.1 kv.2.dimensions kv.2.data_type (chainOf kv.1) "" none forest) []

/-- last element of a list of strings (the final segment or final
cumulative key). -/
def lastSeg : List String → String
  | [] => ""
  | [p] => p
  | _ :: ps => lastSeg ps

/-- the successive cumulative keys of walking the given parts from a
cumulative path. -/
def cumKeys : String → List String → List String
  | _, [] => []
  | current_path, part :: rest =>
      let current_path2 := pyJoin current_path part
      current_path2 :: cumKeys current_path2 rest

/-- the item the walk of one catalog entry creates at cumulative key k
when no key of its walk was present beforehand: the first walk position
whose cumulative key is k creates the node, a payload-carrying leaf
exactly when that position is the final segment. -/
def entryItem (full_path : String) (dims : List Int) (data_type : String) :
    List String → String → String → Option TagItem
  | [], _, _ => none
  | part :: rest, current_path, k =>
      let current_path2 := pyJoin current_path part
      if current_path2 = k then some (mkPyItem part rest.isEmpty full_path dims data_type)
      else entryItem full_path dims data_type rest current_path2 k

/-- specification of the item found under node_map key k in the built
tree: the first catalog entry whose walk passes through k materializes
it, through entryItem. -/
def newItemFor : List (String × TagMeta) → String → Option TagItem
  | [], _ => none
  | (kpath, m) :: rest, k =>
      match entryItem kpath m.dimensions m.data_type (chainOf kpath) "" k with
      | some it => some it
      | none => newItemFor rest k

/-- depth-first flattening of the metadata-carrying nodes of a forest:
each contributes its UserRole payload together with its tooltip. -/
def dataLeavesF : List TagTree → List ((String × List Int) × Option String)
  | [] => []
  | TagTree.node _ it cs :: ts =>
      (match it.userData with
       | some d => [(d, it.toolTip)]
       | none => []) ++ dataLeavesF cs ++ dataLeavesF ts
termination_by f => sizeOf f
decreasing_by all_goals (simp <;> omega)

/-- all nodes of a forest, depth first (each node followed by its
descendants). -/
def descsF : List TagTree → List TagTree
  | [] => []
  | TagTree.node s it cs :: ts => TagTree.node s it cs :: (descsF cs ++ descsF ts)
termination_by f => sizeOf f
decreasing_by all_goals (simp <;> omega)

/-- all node_map keys of a forest, depth first. -/
def allKeysF : List TagTree → List String
  | [] => []
  | TagTree.node nk _ ncs :: ts => nk :: (allKeysF ncs ++ allKeysF ts)
termination_by f => sizeOf f
decreasing_by all_goals (simp <;> omega)

/-- boolean membership of a string in a list of strings. -/
def memStr (x : String) : List String → Bool
  | [] => false
  | y :: ys => x = y || memStr x ys

/-- orderedness of the catalog walk traces under which no payload is
dropped: no entry has its final cumulative key inside the trace of an
earlier entry, and each entry meets its own final key only at its final
position.  Extractor output always satisfies this: tag names have no
empty segments, a structure entry precedes its children and keys are
unique, so every final key is new when the walk reaches it. -/
def tracesOK : List (List String) → Bool
  | [] => true
  | tr :: rest =>
      !memStr (lastSeg tr) tr.dropLast
      && rest.all (fun tr2 => !memStr (lastSeg tr2) tr)
      && tracesOK rest

/-- the leaf entry of the typed catalog entry (k, m): the payload and
tooltip its tree leaf carries. -/
def leafEntry (k : String) (m : TagMeta) : (String × List Int) × Option String :=
  ((k, m.dimensions), some (k ++ "(" ++ m.data_type ++ ")"))

/-- case-insensitive substring occurrence over character lists. -/
def listSub (needle : List Char) : List Char → Bool
  | [] => listPre needle []
  | c :: cs => listPre needle (c :: cs) || listSub needle cs

/-- embedding of the proxy filter match: setFilterFixedString under
Qt.CaseInsensitive, i.e. case-insensitive substring containment of the
pattern in the label; the empty pattern matches everything. -/
def patMatch (pattern text : String) : Bool :=
  listSub (pattern.data.map Char.toLower) (text.data.map Char.toLower)

mutual

/-- embedding of TagFilterProxyModel.filterAcceptsRow for the node t whose
parent label is pl (none when source_parent is invalid, i.e. a top-level
row): self label match, else some child row accepted recursively, else a
valid parent whose label matches. -/
def filterAcceptsRow (pattern : String) (pl : Option String) : TagTree → Bool
  | TagTree.node _ it cs =>
      patMatch pattern it.label
      || anyAccepted pattern it.label cs
      || (match pl with
          | some s => patMatch pattern s
          | none => false)
termination_by t => sizeOf t
decreasing_by all_goals (simp <;> omega)

/-- the loop over child rows inside filterAcceptsRow. -/
def anyAccepted (pattern : String) (lbl : String) : List TagTree → Bool
  | [] => false
  | c :: cs => filterAcceptsRow pattern (some lbl) c || anyAccepted pattern lbl cs
termination_by cs => sizeOf cs
decreasing_by all_goals (simp <;> omega)

end

/-- embedding of MainWindow.handle_tag_selection over the selected nodes:
collect the Qt.UserRole payloads, skipping nodes without one (a missing
payload is Python None, which is falsy). -/
def handle_tag_selection : List TagTree → List (String × List Int)
  | [] => []
  | t :: rest =>
      match t.itemOf.userData with
      | some tag_path => tag_path :: handle_tag_selection rest
      | none => handle_tag_selection rest

/-- embedding of MainWindow.add_fault_tag_clicked: fold the freshly
selected payloads into the persistent fault_tags_list, appending each one
only when not already present. -/
def add_fault_tag_clicked (fault_tags : List (String × List Int))
    (fault_tags_list : List (String × List Int)) : List (String × List Int) :=
  match fault_tags with
  | [] => fault_tags_list
  | tag :: rest =>
      if tag ∈ fault_tags_list then add_fault_tag_clicked rest fault_tags_list
      else add_fault_tag_clicked rest (fault_tags_list ++ [tag])

/-- specification of the growth of the accumulator: the not-yet-present
entries, first occurrences only, in the order given. -/
def firstNew : List (String × List Int) → List (String × List Int) → List (String × List Int)
  | [], _ => []
  | t :: ts, seen =>
      if t ∈ seen then firstNew ts seen else t :: firstNew ts (seen ++ [t])

/-- concrete catalog listing a child path before the path of its parent
structure: the parent path is then first materialized as an intermediate
segment. -/
def cexCatalog : List (String × TagMeta) :=
  [("A.B", ⟨"DINT", [0, 0, 0], false⟩), ("A", ⟨"MyT", [0, 0, 0], true⟩)]

/-- concrete catalog in extractor order: every key precedes the keys it
prefixes. -/
def okCatalog : List (String × TagMeta) :=
  [("A", ⟨"MyT", [0, 0, 0], true⟩), ("A.B", ⟨"DINT", [5, 0, 0], false⟩)]

/-- label format as the spec words it, by explicit case analysis on which
of the three dimension slots are strictly positive. -/
def labelSpec (name : String) (d1 d2 d3 : Int) : String :=
  if d1 = 0 ∧ d2 = 0 ∧ d3 = 0 then name
  else if d1 > 0 then
    if d2 > 0 then
      if d3 > 0 then
        name ++ "[" ++ toString d1 ++ "," ++ toString d2 ++ "," ++ toString d3 ++ "]"
      else name ++ "[" ++ toString d1 ++ "," ++ toString d2 ++ "]"
    else
      if d3 > 0 then name ++ "[" ++ toString d1 ++ "," ++ toString d3 ++ "]"
      else name ++ "[" ++ toString d1 ++ "]"
  else if d2 > 0 then
    if d3 > 0 then name ++ "[" ++ toString d2 ++ "," ++ toString d3 ++ "]"
    else name ++ "[" ++ toString d2 ++ "]"
  else if d3 > 0 then name ++ "[" ++ toString d3 ++ "]"
  else name ++ "[]"

/-! Helper lemmas. -/

theorem listSub_nil (hay : List Char) : listSub [] hay = true := by
  cases hay <;> simp [listSub, listPre]

theorem patMatch_empty (t : String) : patMatch "" t = true := by
  have h : ("" : String).data = [] := rfl
  simp [patMatch, h, listSub_nil]

theorem filter_pos_cons {d : Int} (ds : List Int) (h : 0 < d) :
    (d :: ds).filter (fun x => x > 0) = d :: ds.filter (fun x => x > 0) := by
  simp [List.filter_cons, h]

theorem filter_zero_cons (ds : List Int) :
    ((0 : Int) :: ds).filter (fun x => x > 0) = ds.filter (fun x => x > 0) := by
  simp [List.filter_cons]

/-! Theorems for the claims, and the lemmas they build on. -/

/-- C5: for non-negative dimension triples, the label produced by
format_dimension_label is the bare name exactly on [0,0,0], and otherwise
the name followed by the strictly positive dimension values in slot
order, comma-joined without spaces and enclosed in square brackets, as
enumerated case by case by labelSpec. -/
theorem format_dimension_label_spec (name : String) (d1 d2 d3 : Int)
    (h1 : 0 ≤ d1) (h2 : 0 ≤ d2) (h3 : 0 ≤ d3) :
    format_dimension_label name [d1, d2, d3] = labelSpec name d1 d2 d3 := by
  rcases h1.eq_or_lt with e1 | l1 <;> rcases h2.eq_or_lt with e2 | l2 <;>
    rcases h3.eq_or_lt with e3 | l3 <;>
    simp_all [format_dimension_label, labelSpec, joinComma, List.filter_cons,
      String.append_assoc]

/-- C5 witness: the theorem applied at the arrayed example of the spec. -/
theorem format_dimension_label_spec_witness :
    format_dimension_label "Counter" [3, 2, 0] = labelSpec "Counter" 3 2 0 :=
  format_dimension_label_spec "Counter" 3 2 0 (by decide) (by decide) (by decide)

/-- C7: the empty filter pattern makes every node visible, whatever its
parent; in particular it does not fail. -/
theorem empty_pattern_accepts_all (pl : Option String) (t : TagTree) :
    filterAcceptsRow "" pl t = true := by
  cases t with
  | node s it cs =>
    rw [filterAcceptsRow.eq_def]
    simp [patMatch_empty]

theorem add_fault_tag_clicked_append (tags acc : List (String × List Int)) :
    add_fault_tag_clicked tags acc = acc ++ firstNew tags acc := by
  induction tags generalizing acc with
  | nil => simp [add_fault_tag_clicked, firstNew]
  | cons t rest ih =>
    by_cases ht : t ∈ acc <;>
      simp [add_fault_tag_clicked, firstNew, ht, ih]

theorem mem_add_fault_tag_of_mem_acc {a : String × List Int}
    (tags acc : List (String × List Int)) (h : a ∈ acc) :
    a ∈ add_fault_tag_clicked tags acc := by
  rw [add_fault_tag_clicked_append]
  exact List.mem_append_left _ h

theorem mem_add_fault_tag_of_mem_tags {a : String × List Int}
    {tags : List (String × List Int)} (acc : List (String × List Int)) (h : a ∈ tags) :
    a ∈ add_fault_tag_clicked tags acc := by
  induction tags generalizing acc with
  | nil => cases h
  | cons t rest ih =>
    rcases List.mem_cons.mp h with rfl | hmem
    · by_cases ht : a ∈ acc
      · simpa [add_fault_tag_clicked, ht] using
          mem_add_fault_tag_of_mem_acc rest acc ht
      · simpa [add_fault_tag_clicked, ht] using
          mem_add_fault_tag_of_mem_acc rest (acc ++ [a]) (by simp)
    · by_cases ht : t ∈ acc
      · simpa [add_fault_tag_clicked, ht] using ih acc hmem
      · simpa [add_fault_tag_clicked, ht] using ih (acc ++ [t]) hmem

theorem add_fault_tag_of_subset {tags acc : List (String × List Int)}
    (h : ∀ t ∈ tags, t ∈ acc) : add_fault_tag_clicked tags acc = acc := by
  induction tags with
  | nil => rfl
  | cons t rest ih =>
    have ht : t ∈ acc := h t (by simp)
    simp [add_fault_tag_clicked, ht]
    exact ih fun x hx => h x (by simp [hx])

/-- C8: the accumulator extends by exactly the not-yet-present entries,
first occurrences in given order (so present entries are never appended
again and first-seen order is preserved), and a second run with the same
input changes nothing. -/
theorem add_fault_tag_clicked_spec (tags acc : List (String × List Int)) :
    add_fault_tag_clicked tags acc = acc ++ firstNew tags acc ∧
    add_fault_tag_clicked tags (add_fault_tag_clicked tags acc) =
      add_fault_tag_clicked tags acc :=
  ⟨add_fault_tag_clicked_append tags acc,
   add_fault_tag_of_subset fun t ht => mem_add_fault_tag_of_mem_tags acc ht⟩

/-- C9: the Selection Collector returns exactly the UserRole payloads (the
full dotted path with its dimensions) of the selected nodes that carry
one, in the order provided; nodes without a payload are skipped, never an
error. -/
theorem handle_tag_selection_eq_filterMap (sel : List TagTree) :
    handle_tag_selection sel = sel.filterMap fun t => t.itemOf.userData := by
  induction sel with
  | nil => rfl
  | cons t rest ih =>
    cases h : t.itemOf.userData <;>
      simp [handle_tag_selection, h, ih, List.filterMap_cons]

theorem anyAccepted_iff (pattern lbl : String) (cs : List TagTree) :
    anyAccepted pattern lbl cs = true ↔
      ∃ c ∈ cs, filterAcceptsRow pattern (some lbl) c = true := by
  induction cs with
  | nil => rw [anyAccepted.eq_def]; simp
  | cons c cs ih => rw [anyAccepted.eq_def]; simp [ih]

theorem mem_descsF (cs : List TagTree) (d : TagTree) :
    d ∈ descsF cs ↔ ∃ c ∈ cs, (d = c ∨ d ∈ descsF c.childrenOf) := by
  induction cs with
  | nil => simp [descsF]
  | cons t ts ih =>
    obtain ⟨s, it, cc⟩ := t
    rw [descsF.eq_def]
    simp only [List.mem_cons, List.mem_append, ih, TagTree.childrenOf]
    constructor
    · rintro (rfl | hcc | ⟨c, hc, hd⟩)
      · exact ⟨_, Or.inl rfl, Or.inl rfl⟩
      · exact ⟨_, Or.inl rfl, Or.inr hcc⟩
      · exact ⟨c, Or.inr hc, hd⟩
    · rintro ⟨c, (rfl | hc), hd⟩
      · rcases hd with rfl | hd
        · exact Or.inl rfl
        · exact Or.inr (Or.inl hd)
      · exact Or.inr (Or.inr ⟨c, hc, hd⟩)

/-- C2: a node is accepted by the filter exactly when its own label
matches, or the label of some descendant at any depth matches, or it has
a parent and the parent label matches; nothing else (in particular a
matching ancestor beyond the immediate parent) grants acceptance. -/
theorem filterAcceptsRow_iff (pattern : String) :
    ∀ (t : TagTree) (pl : Option String),
      filterAcceptsRow pattern pl t = true ↔
        (patMatch pattern t.itemOf.label = true ∨
         (∃ d ∈ descsF t.childrenOf, patMatch pattern d.itemOf.label = true) ∨
         (∃ s, pl = some s ∧ patMatch pattern s = true))
  | TagTree.node s it cs, pl => by
    have IH : ∀ c ∈ cs, ∀ pl2,
        filterAcceptsRow pattern pl2 c = true ↔
          (patMatch pattern c.itemOf.label = true ∨
           (∃ d ∈ descsF c.childrenOf, patMatch pattern d.itemOf.label = true) ∨
           (∃ s2, pl2 = some s2 ∧ patMatch pattern s2 = true)) :=
      fun c hc pl2 => filterAcceptsRow_iff pattern c pl2
    rw [filterAcceptsRow.eq_def]
    simp only [TagTree.itemOf, TagTree.childrenOf]
    cases pl with
    | none =>
      simp only [Bool.or_eq_true, anyAccepted_iff]
      constructor
      · rintro ((hm | ⟨c, hc, hacc⟩) | hfalse)
        · exact Or.inl hm
        · rcases (IH c hc (some it.label)).mp hacc with hm | ⟨d, hd, hmd⟩ | ⟨s2, hs2, hms⟩
          · exact Or.inr (Or.inl ⟨c, (mem_descsF cs c).mpr ⟨c, hc, Or.inl rfl⟩, hm⟩)
          · exact Or.inr (Or.inl ⟨d, (mem_descsF cs d).mpr ⟨c, hc, Or.inr hd⟩, hmd⟩)
          · cases hs2
            exact Or.inl hms
        · exact absurd hfalse (by simp)
      · rintro (hm | ⟨d, hd, hmd⟩ | ⟨s2, hs2, hms⟩)
        · exact Or.inl (Or.inl hm)
        · rcases (mem_descsF cs d).mp hd with ⟨c, hc, rfl | hdd⟩
          · exact Or.inl (Or.inr ⟨d, hc, (IH d hc (some it.label)).mpr (Or.inl hmd)⟩)
          · exact Or.inl (Or.inr ⟨c, hc,
              (IH c hc (some it.label)).mpr (Or.inr (Or.inl ⟨d, hdd, hmd⟩))⟩)
        · exact Option.noConfusion hs2
    | some ps =>
      simp only [Bool.or_eq_true, anyAccepted_iff]
      constructor
      · rintro ((hm | ⟨c, hc, hacc⟩) | hp)
        · exact Or.inl hm
        · rcases (IH c hc (some it.label)).mp hacc with hm | ⟨d, hd, hmd⟩ | ⟨s2, hs2, hms⟩
          · exact Or.inr (Or.inl ⟨c, (mem_descsF cs c).mpr ⟨c, hc, Or.inl rfl⟩, hm⟩)
          · exact Or.inr (Or.inl ⟨d, (mem_descsF cs d).mpr ⟨c, hc, Or.inr hd⟩, hmd⟩)
          · cases hs2
            exact Or.inl hms
        · exact Or.inr (Or.inr ⟨ps, rfl, hp⟩)
      · rintro (hm | ⟨d, hd, hmd⟩ | ⟨s2, hs2, hms⟩)
        · exact Or.inl (Or.inl hm)
        · rcases (mem_descsF cs d).mp hd with ⟨c, hc, rfl | hdd⟩
          · exact Or.inl (Or.inr ⟨d, hc, (IH d hc (some it.label)).mpr (Or.inl hmd)⟩)
          · exact Or.inl (Or.inr ⟨c, hc,
              (IH c hc (some it.label)).mpr (Or.inr (Or.inl ⟨d, hdd, hmd⟩))⟩)
        · cases hs2
          exact Or.inr hms
termination_by t _ => sizeOf t
decreasing_by
  have := List.sizeOf_lt_of_mem hc
  simp <;> omega

theorem extractChildGo_cons (cn : String) (ci : JVal) (rest : List (String × JVal))
    (array : List (String × RawTagMeta)) (name : String) :
    extractChildGo ((cn, ci) :: rest) array name =
      match childStep cn ci array name with
      | none => none
      | some a2 => extractChildGo rest a2 name := by
  rw [extractChildGo.eq_def]
  simp only [childStep]
  repeat' (split <;> try simp_all)

theorem childStep_hidden {cn : String} {ci : JVal} {array a2 : List (String × RawTagMeta)}
    {name : String} (hh : hiddenName cn = true)
    (h : childStep cn ci array name = some a2) : a2 = array := by
  simp only [childStep] at h
  repeat' (split at h <;> try simp_all)

theorem extractChildGo_filter :
    ∀ (fields : List (String × JVal)) (array : List (String × RawTagMeta))
      (name : String) (c : List (String × RawTagMeta)),
    extractChildGo fields array name = some c →
    extractChildGo (fields.filter fun p => !hiddenName p.1) array name = some c := by
  intro fields
  induction fields with
  | nil => intro array name c h; simpa using h
  | cons p rest ih =>
    obtain ⟨cn, ci⟩ := p
    intro array name c h
    rw [extractChildGo_cons] at h
    cases hcs : childStep cn ci array name with
    | none => rw [hcs] at h; exact absurd h (by simp)
    | some a2 =>
      rw [hcs] at h
      by_cases hh : hiddenName cn = true
      · have ha : a2 = array := childStep_hidden hh hcs
        subst ha
        simp only [List.filter_cons, hh, Bool.not_true, Bool.false_eq_true, if_false]
        exact ih _ _ _ h
      · have hh' : hiddenName cn = false := by simpa using hh
        simp only [List.filter_cons, hh', Bool.not_false, if_true]
        rw [extractChildGo_cons, hcs]
        exact ih _ _ _ h

/-- C3: when child extraction succeeds, removing every hidden child (name
starting with an underscore or with ten uppercase Z) from the payload
leaves the result unchanged: hidden children contribute no catalog entry
at all and their own members are never descended into, even when they are
structures. -/
theorem extract_child_data_types_skips_hidden (struc : JVal)
    (array : List (String × RawTagMeta)) (name : String)
    (c : List (String × RawTagMeta))
    (h : extract_child_data_types struc array name = some c) :
    extract_child_data_types (jfilterHidden struc) array name = some c := by
  cases struc with
  | jobj fields =>
    rw [extract_child_data_types.eq_def] at h ⊢
    simp only [jfilterHidden]
    exact extractChildGo_filter _ _ _ _ h
  | jstr s => rw [extract_child_data_types.eq_def] at h; exact absurd h (by simp)
  | jnum n => rw [extract_child_data_types.eq_def] at h; exact absurd h (by simp)
  | jbool b => rw [extract_child_data_types.eq_def] at h; exact absurd h (by simp)
  | jarr xs => rw [extract_child_data_types.eq_def] at h; exact absurd h (by simp)

/-- C3 witness: the theorem applied to a concrete payload holding a
visible atomic child and two hidden structure children. -/
theorem extract_child_data_types_skips_hidden_witness :
    extract_child_data_types (jfilterHidden hiddenExample) [] "T" =
      some [("T.Good",
        ⟨JVal.jstr "DINT", JVal.jarr [JVal.jnum 0, JVal.jnum 0, JVal.jnum 0], false⟩)] :=
  extract_child_data_types_skips_hidden hiddenExample [] "T" _
    (by simp [hiddenExample, extract_child_data_types, extractChildGo, jget,
      lookupFirst, jgetOrD, hiddenName, listPre, jeqS, dinsert])

/-- C4: a structured entry whose type name is the STRING sentinel is
recorded as a leaf (data_type the sentinel, structure flag false) and the
loop moves straight on to the remaining entries: the internal_tags of the
entry are never read, hence never recursed into.  First conjunct: a child
member inside extract_child_data_types; second conjunct: a top-level
entry of get_tags_from_plc. -/
theorem string_sentinel_never_recurses :
    (∀ (cn : String) (ci : JVal) (rest : List (String × JVal))
       (array : List (String × RawTagMeta)) (name : String) (cdt ctt alen nm : JVal),
      jget ci "data_type" = some cdt →
      jget ci "tag_type" = some ctt →
      jgetOrD ci "array" (JVal.jnum 0) = some alen →
      hiddenName cn = false →
      jeqS ctt "atomic" = false →
      jeqS ctt "struct" = true →
      jget cdt "name" = some nm →
      jeqS nm "STRING" = true →
      extractChildGo ((cn, ci) :: rest) array name =
        extractChildGo rest
          (dinsert array (name ++ "." ++ cn)
            ⟨nm, JVal.jarr [alen, JVal.jnum 0, JVal.jnum 0], false⟩) name)
    ∧ (∀ (tn : String) (ti : JVal) (rest : List (String × JVal))
         (tag_list : List (String × RawTagMeta)) (tdt tt dims nm : JVal),
      jget ti "data_type" = some tdt →
      jget ti "tag_type" = some tt →
      jgetOrD ti "dimensions" (JVal.jarr [JVal.jnum 0, JVal.jnum 0, JVal.jnum 0]) = some dims →
      jeqS tt "atomic" = false →
      jeqS tt "struct" = true →
      jget tdt "name" = some nm →
      jeqS nm "STRING" = true →
      getTagsGo ((tn, ti) :: rest) tag_list =
        getTagsGo rest (dinsert tag_list tn ⟨nm, dims, false⟩)) := by
  constructor
  · intro cn ci rest array name cdt ctt alen nm h1 h2 h3 h4 h5 h6 h7 h8
    rw [extractChildGo.eq_def]
    split <;> simp_all [h2, h3, h4, h5, h6, h7, h8]
    split <;> simp_all
  · intro tn ti rest tag_list tdt tt dims nm h1 h2 h3 h4 h5 h6 h7
    simp [getTagsGo, h1, h2, h3, h4, h5, h6, h7]

/-- C4 witness: both conjuncts applied to a concrete string-typed
structured description that supplies an internal_tags collection. -/
theorem string_sentinel_never_recurses_witness :
    extractChildGo [("Name", stringExample)] [] "Recipe" =
      extractChildGo []
        (dinsert [] ("Recipe" ++ "." ++ "Name")
          ⟨JVal.jstr "STRING", JVal.jarr [JVal.jnum 0, JVal.jnum 0, JVal.jnum 0], false⟩)
        "Recipe" ∧
    getTagsGo [("S", stringExample)] [] =
      getTagsGo []
        (dinsert [] "S"
          ⟨JVal.jstr "STRING", JVal.jarr [JVal.jnum 0, JVal.jnum 0, JVal.jnum 0], false⟩) :=
  ⟨string_sentinel_never_recurses.1 "Name" stringExample [] [] "Recipe" _ _ _ _
      rfl rfl rfl rfl rfl rfl rfl rfl,
   string_sentinel_never_recurses.2 "S" stringExample [] [] _ _ _ _
      rfl rfl rfl rfl rfl rfl rfl⟩

/-- C6 counterexample: a top-level entry of unexpected kind (tag_type
neither atomic nor struct) does not make extraction fail; the entry is
silently dropped and an (empty) catalog is produced. -/
theorem unexpected_kind_does_not_fail :
    get_tags_from_plc [("T", bogusKindExample)] = some [] := rfl

/-- C6 amended: extraction aborts with no catalog when an accessed
required field is missing, at top level and at child level alike:
data_type or tag_type of any entry, the name of a struct type, or the
internal_tags of a non-string struct type; an entry of unexpected kind is
skipped, contributing nothing; an empty payload gives the empty catalog
without failing. -/
theorem get_tags_malformed_payload :
    (get_tags_from_plc [] = some []) ∧
    (∀ (tn : String) (ti : JVal) (rest : List (String × JVal))
       (tag_list : List (String × RawTagMeta)),
      jget ti "data_type" = none → getTagsGo ((tn, ti) :: rest) tag_list = none) ∧
    (∀ (tn : String) (ti : JVal) (rest : List (String × JVal))
       (tag_list : List (String × RawTagMeta)) (tdt : JVal),
      jget ti "data_type" = some tdt → jget ti "tag_type" = none →
      getTagsGo ((tn, ti) :: rest) tag_list = none) ∧
    (∀ (tn : String) (ti : JVal) (rest : List (String × JVal))
       (tag_list : List (String × RawTagMeta)) (tdt tt dims : JVal),
      jget ti "data_type" = some tdt → jget ti "tag_type" = some tt →
      jgetOrD ti "dimensions" (JVal.jarr [JVal.jnum 0, JVal.jnum 0, JVal.jnum 0]) = some dims →
      jeqS tt "atomic" = false → jeqS tt "struct" = true →
      jget tdt "name" = none → getTagsGo ((tn, ti) :: rest) tag_list = none) ∧
    (∀ (tn : String) (ti : JVal) (rest : List (String × JVal))
       (tag_list : List (String × RawTagMeta)) (tdt tt dims nm : JVal),
      jget ti "data_type" = some tdt → jget ti "tag_type" = some tt →
      jgetOrD ti "dimensions" (JVal.jarr [JVal.jnum 0, JVal.jnum 0, JVal.jnum 0]) = some dims →
      jeqS tt "atomic" = false → jeqS tt "struct" = true →
      jget tdt "name" = some nm → jeqS nm "STRING" = false →
      jget tdt "internal_tags" = none → getTagsGo ((tn, ti) :: rest) tag_list = none) ∧
    (∀ (cn : String) (ci : JVal) (rest : List (String × JVal))
       (array : List (String × RawTagMeta)) (name : String),
      jget ci "data_type" = none → extractChildGo ((cn, ci) :: rest) array name = none) ∧
    (∀ (cn : String) (ci : JVal) (rest : List (String × JVal))
       (array : List (String × RawTagMeta)) (name : String) (cdt : JVal),
      jget ci "data_type" = some cdt → jget ci "tag_type" = none →
      extractChildGo ((cn, ci) :: rest) array name = none) ∧
    (∀ (cn : String) (ci : JVal) (rest : List (String × JVal))
       (array : List (String × RawTagMeta)) (name : String) (cdt ct alen : JVal),
      jget ci "data_type" = some cdt → jget ci "tag_type" = some ct →
      jgetOrD ci "array" (JVal.jnum 0) = some alen →
      hiddenName cn = false → jeqS ct "atomic" = false → jeqS ct "struct" = true →
      jget cdt "name" = none → extractChildGo ((cn, ci) :: rest) array name = none) ∧
    (∀ (cn : String) (ci : JVal) (rest : List (String × JVal))
       (array : List (String × RawTagMeta)) (name : String) (cdt ct alen nm : JVal),
      jget ci "data_type" = some cdt → jget ci "tag_type" = some ct →
      jgetOrD ci "array" (JVal.jnum 0) = some alen →
      hiddenName cn = false → jeqS ct "atomic" = false → jeqS ct "struct" = true →
      jget cdt "name" = some nm → jeqS nm "STRING" = false →
      jget cdt "internal_tags" = none →
      extractChildGo ((cn, ci) :: rest) array name = none) ∧
    (∀ (tn : String) (ti : JVal) (rest : List (String × JVal))
       (tag_list : List (String × RawTagMeta)) (tdt tt dims : JVal),
      jget ti "data_type" = some tdt → jget ti "tag_type" = some tt →
      jgetOrD ti "dimensions" (JVal.jarr [JVal.jnum 0, JVal.jnum 0, JVal.jnum 0]) = some dims →
      jeqS tt "atomic" = false → jeqS tt "struct" = false →
      getTagsGo ((tn, ti) :: rest) tag_list = getTagsGo rest tag_list) := by
  refine ⟨rfl, ?_, ?_, ?_, ?_, ?_, ?_, ?_, ?_, ?_⟩
  · intro tn ti rest tag_list h1
    simp [getTagsGo, h1]
  · intro tn ti rest tag_list tdt h1 h2
    simp [getTagsGo, h1, h2]
  · intro tn ti rest tag_list tdt tt dims h1 h2 h3 h4 h5 h6
    simp [getTagsGo, h1, h2, h3, h4, h5, h6]
  · intro tn ti rest tag_list tdt tt dims nm h1 h2 h3 h4 h5 h6 h7 h8
    simp [getTagsGo, h1, h2, h3, h4, h5, h6, h7, h8]
  · intro cn ci rest array name h1
    rw [extractChildGo_cons]
    simp [childStep, h1]
  · intro cn ci rest array name cdt h1 h2
    rw [extractChildGo_cons]
    simp [childStep, h1, h2]
  · intro cn ci rest array name cdt ct alen h1 h2 h3 h4 h5 h6 h7
    rw [extractChildGo_cons]
    simp [childStep, h1, h2, h3, h4, h5, h6, h7]
  · intro cn ci rest array name cdt ct alen nm h1 h2 h3 h4 h5 h6 h7 h8 h9
    rw [extractChildGo_cons]
    simp [childStep, h1, h2, h3, h4, h5, h6, h7, h8, h9]
  · intro tn ti rest tag_list tdt tt dims h1 h2 h3 h4 h5
    simp [getTagsGo, h1, h2, h3, h4, h5]

/-- C6 witness: the amended behaviors at concrete payloads: missing
data_type or tag_type aborts at top level and at child level, a missing
struct name or the missing internal_tags of a non-string struct aborts,
and an unexpected kind is skipped. -/
theorem get_tags_malformed_payload_witness :
    getTagsGo [("A", JVal.jobj [("tag_type", JVal.jstr "atomic")])] [] = none ∧
    getTagsGo [("B", JVal.jobj [("data_type", JVal.jstr "DINT")])] [] = none ∧
    getTagsGo [("T2", JVal.jobj [("data_type", JVal.jobj [("name", JVal.jstr "MyT")]),
      ("tag_type", JVal.jstr "struct")])] [] = none ∧
    extractChildGo [("C", JVal.jobj [("tag_type", JVal.jstr "atomic")])] [] "P" = none ∧
    extractChildGo [("C", JVal.jobj [("data_type", JVal.jstr "DINT")])] [] "P" = none ∧
    extractChildGo [("C", JVal.jobj [("data_type", JVal.jobj []),
      ("tag_type", JVal.jstr "struct")])] [] "P" = none ∧
    extractChildGo [("C", JVal.jobj [("data_type", JVal.jobj [("name", JVal.jstr "MyT")]),
      ("tag_type", JVal.jstr "struct")])] [] "P" = none ∧
    getTagsGo [("T", bogusKindExample)] [] = getTagsGo [] [] :=
  ⟨get_tags_malformed_payload.2.1 "A" _ [] [] rfl,
   get_tags_malformed_payload.2.2.1 "B" _ [] [] (JVal.jstr "DINT") rfl rfl,
   get_tags_malformed_payload.2.2.2.2.1 "T2" _ [] []
     (JVal.jobj [("name", JVal.jstr "MyT")]) (JVal.jstr "struct")
     (JVal.jarr [JVal.jnum 0, JVal.jnum 0, JVal.jnum 0]) (JVal.jstr "MyT")
     rfl rfl rfl rfl rfl rfl rfl rfl,
   get_tags_malformed_payload.2.2.2.2.2.1 "C" _ [] [] "P" rfl,
   get_tags_malformed_payload.2.2.2.2.2.2.1 "C" _ [] [] "P" (JVal.jstr "DINT") rfl rfl,
   get_tags_malformed_payload.2.2.2.2.2.2.2.1 "C" _ [] [] "P"
     (JVal.jobj []) (JVal.jstr "struct") (JVal.jnum 0)
     rfl rfl rfl rfl rfl rfl rfl,
   get_tags_malformed_payload.2.2.2.2.2.2.2.2.1 "C" _ [] [] "P"
     (JVal.jobj [("name", JVal.jstr "MyT")]) (JVal.jstr "struct") (JVal.jnum 0)
     (JVal.jstr "MyT") rfl rfl rfl rfl rfl rfl rfl rfl rfl,
   get_tags_malformed_payload.2.2.2.2.2.2.2.2.2 "T" bogusKindExample [] []
     (JVal.jstr "DINT") (JVal.jstr "bogus")
     (JVal.jarr [JVal.jnum 0, JVal.jnum 0, JVal.jnum 0]) rfl rfl rfl rfl rfl⟩

/-! Lemmas on the tree builder, leading to the characterization of the
item stored under each node_map key of the built tree (C10) and to the
round-trip property (C1). -/

theorem lastSeg_cons_cons (a b : String) (l : List String) :
    lastSeg (a :: b :: l) = lastSeg (b :: l) := rfl

theorem splitDot_ne_nil (cs : List Char) : splitDot cs ≠ [] := by
  induction cs with
  | nil => simp [splitDot]
  | cons c cs ih =>
    simp only [splitDot]
    split
    · simp
    · cases h : splitDot cs <;> simp

theorem chainOf_ne_nil (k : String) : chainOf k ≠ [] := by
  simp [chainOf, splitDot_ne_nil]

theorem memStr_eq_false_iff (x : String) (l : List String) :
    memStr x l = false ↔ x ∉ l := by
  induction l with
  | nil => simp [memStr]
  | cons y ys ih => simp [memStr, ih]

theorem findKeyF_nil (k : String) : findKeyF [] k = none := by
  simp [findKeyF]

theorem findKeyF_cons (nk : String) (nit : TagItem) (ncs ts : List TagTree) (k : String) :
    findKeyF (TagTree.node nk nit ncs :: ts) k =
      if nk = k then some nit
      else
        match findKeyF ncs k with
        | some it => some it
        | none => findKeyF ts k := by
  rw [findKeyF.eq_def]

theorem findKeyF_append (f g : List TagTree) (k : String) :
    findKeyF (f ++ g) k =
      match findKeyF f k with
      | some it => some it
      | none => findKeyF g k := by
  induction f with
  | nil => simp [findKeyF_nil]
  | cons t f ih =>
    obtain ⟨nk, nit, ncs⟩ := t
    rw [List.cons_append, findKeyF_cons, findKeyF_cons]
    by_cases hk : nk = k
    · simp [hk]
    · simp only [if_neg hk]
      cases hc : findKeyF ncs k with
      | some it => simp
      | none => simp [ih]

theorem allKeysF_cons (nk : String) (nit : TagItem) (ncs ts : List TagTree) :
    allKeysF (TagTree.node nk nit ncs :: ts) = nk :: (allKeysF ncs ++ allKeysF ts) := by
  rw [allKeysF.eq_def]

theorem allKeysF_append (f g : List TagTree) :
    allKeysF (f ++ g) = allKeysF f ++ allKeysF g := by
  induction f with
  | nil => simp [allKeysF]
  | cons t f ih =>
    obtain ⟨nk, nit, ncs⟩ := t
    rw [List.cons_append, allKeysF_cons, allKeysF_cons, ih]
    simp

theorem findKeyF_cons_eq_none (nk : String) (nit : TagItem) (ncs ts : List TagTree)
    (k : String) (h : findKeyF (TagTree.node nk nit ncs :: ts) k = none) :
    nk ≠ k ∧ findKeyF ncs k = none ∧ findKeyF ts k = none := by
  rw [findKeyF_cons] at h
  by_cases hk : nk = k
  · rw [if_pos hk] at h
    exact absurd h (by simp)
  · rw [if_neg hk] at h
    cases hc : findKeyF ncs k with
    | some it => rw [hc] at h; exact absurd h (by simp)
    | none =>
      rw [hc] at h
      exact ⟨hk, rfl, h⟩

theorem findKeyF_isSome_iff :
    ∀ (f : List TagTree) (k : String), (findKeyF f k).isSome = true ↔ k ∈ allKeysF f
  | [], k => by simp [findKeyF_nil, allKeysF]
  | TagTree.node nk nit ncs :: ts, k => by
    rw [findKeyF_cons, allKeysF_cons]
    by_cases hk : nk = k
    · simp [hk]
    · rw [if_neg hk]
      have ih1 := findKeyF_isSome_iff ncs k
      have ih2 := findKeyF_isSome_iff ts k
      cases hc : findKeyF ncs k with
      | some it =>
        have : k ∈ allKeysF ncs := ih1.mp (by simp [hc])
        simp [this]
      | none =>
        have h1 : k ∉ allKeysF ncs := by
          intro hmem
          have := ih1.mpr hmem
          rw [hc] at this
          exact absurd this (by simp)
        simp [ih2, h1, Ne.symm hk]
termination_by f _ => sizeOf f
decreasing_by all_goals (simp <;> omega)

theorem findKeyF_eq_none_iff (f : List TagTree) (k : String) :
    findKeyF f k = none ↔ k ∉ allKeysF f := by
  rw [← findKeyF_isSome_iff, Option.not_isSome_iff_eq_none]

theorem appendAtF_isSome :
    ∀ (f : List TagTree) (pk : String) (newt : TagTree),
      (appendAtF f pk newt).isSome = (findKeyF f pk).isSome
  | [], pk, newt => by simp [appendAtF, findKeyF_nil]
  | TagTree.node nk nit ncs :: ts, pk, newt => by
    rw [findKeyF_cons]
    rw [show appendAtF (TagTree.node nk nit ncs :: ts) pk newt =
        (if nk = pk then some (TagTree.node nk nit (ncs ++ [newt]) :: ts)
         else
          match appendAtF ncs pk newt with
          | some ncs2 => some (TagTree.node nk nit ncs2 :: ts)
          | none =>
            match appendAtF ts pk newt with
            | some ts2 => some (TagTree.node nk nit ncs :: ts2)
            | none => none) from by rw [appendAtF.eq_def]]
    by_cases hk : nk = pk
    · simp [hk]
    · rw [if_neg hk, if_neg hk]
      have ih1 := appendAtF_isSome ncs pk newt
      have ih2 := appendAtF_isSome ts pk newt
      cases h1 : appendAtF ncs pk newt with
      | some ncs2 =>
        rw [h1] at ih1
        cases hf1 : findKeyF ncs pk with
        | some it => simp
        | none => rw [hf1] at ih1; exact absurd ih1 (by simp)
      | none =>
        rw [h1] at ih1
        cases hf1 : findKeyF ncs pk with
        | some it => rw [hf1] at ih1; exact absurd ih1 (by simp)
        | none =>
          cases h2 : appendAtF ts pk newt with
          | some ts2 => simp [← ih2, h2]
          | none => simp [← ih2, h2]
termination_by f _ _ => sizeOf f
decreasing_by all_goals (simp <;> omega)

theorem appendAtF_cons_eq (nk : String) (nit : TagItem) (ncs ts : List TagTree)
    (pk : String) (newt : TagTree) :
    appendAtF (TagTree.node nk nit ncs :: ts) pk newt =
      (if nk = pk then some (TagTree.node nk nit (ncs ++ [newt]) :: ts)
       else
        match appendAtF ncs pk newt with
        | some ncs2 => some (TagTree.node nk nit ncs2 :: ts)
        | none =>
          match appendAtF ts pk newt with
          | some ts2 => some (TagTree.node nk nit ncs :: ts2)
          | none => none) := by
  rw [appendAtF.eq_def]

theorem findKeyF_appendAtF :
    ∀ (f : List TagTree) (pk k2 : String) (it : TagItem) (f2 : List TagTree),
      appendAtF f pk (TagTree.node k2 it []) = some f2 →
      findKeyF f k2 = none →
      ∀ k, findKeyF f2 k = if k = k2 then some it else findKeyF f k
  | [], pk, k2, it, f2 => by simp [appendAtF]
  | TagTree.node nk nit ncs :: ts, pk, k2, it, f2 => by
    intro happ hfresh k
    obtain ⟨hnk, hfncs, hfts⟩ := findKeyF_cons_eq_none _ _ _ _ _ hfresh
    rw [appendAtF_cons_eq] at happ
    by_cases hk : nk = pk
    · rw [if_pos hk] at happ
      injection happ with happ
      subst happ
      rw [findKeyF_cons, findKeyF_cons, findKeyF_append]
      by_cases hkk : nk = k
      · have : ¬ (k = k2) := by
          intro h2
          exact hnk (by rw [hkk, h2])
        simp [hkk, this]
      · rw [if_neg hkk, if_neg hkk]
        cases hc : findKeyF ncs k with
        | some it2 =>
          have : ¬ (k = k2) := by
            intro h2
            rw [h2, hfncs] at hc
            exact absurd hc (by simp)
          simp [this]
        | none =>
          by_cases hk2 : k = k2
          · subst hk2
            rw [findKeyF_cons]
            simp [hfts]
          · rw [findKeyF_cons]
            simp [if_neg hk2, findKeyF_nil, Ne.symm hk2]
    · rw [if_neg hk] at happ
      cases h1 : appendAtF ncs pk (TagTree.node k2 it []) with
      | some ncs2 =>
        rw [h1] at happ
        injection happ with happ
        subst happ
        rw [findKeyF_cons, findKeyF_cons]
        have ih := findKeyF_appendAtF ncs pk k2 it ncs2 h1 hfncs k
        by_cases hkk : nk = k
        · have : ¬ (k = k2) := fun h2 => hnk (by rw [hkk, h2])
          simp [hkk, this]
        · rw [if_neg hkk, if_neg hkk, ih]
          by_cases hk2 : k = k2
          · simp [hk2]
          · simp [hk2]
      | none =>
        rw [h1] at happ
        cases h2 : appendAtF ts pk (TagTree.node k2 it []) with
        | some ts2 =>
          rw [h2] at happ
          injection happ with happ
          subst happ
          rw [findKeyF_cons, findKeyF_cons]
          have ih := findKeyF_appendAtF ts pk k2 it ts2 h2 hfts k
          by_cases hkk : nk = k
          · have : ¬ (k = k2) := fun h2 => hnk (by rw [hkk, h2])
            simp [hkk, this]
          · rw [if_neg hkk, if_neg hkk, ih]
            by_cases hk2 : k = k2
            · subst hk2
              simp [hfncs]
            · simp [hk2]
        | none => rw [h2] at happ; exact absurd happ (by simp)
termination_by f _ _ _ _ => sizeOf f
decreasing_by all_goals (simp <;> omega)

theorem appendAtF_perm :
    ∀ (f : List TagTree) (pk k2 : String) (it : TagItem) (f2 : List TagTree),
      appendAtF f pk (TagTree.node k2 it []) = some f2 →
      List.Perm (allKeysF f2) (k2 :: allKeysF f)
  | [], pk, k2, it, f2 => by simp [appendAtF]
  | TagTree.node nk nit ncs :: ts, pk, k2, it, f2 => by
    intro happ
    rw [appendAtF_cons_eq] at happ
    have hsingle : allKeysF [TagTree.node k2 it []] = [k2] := by
      rw [allKeysF_cons]; simp [allKeysF]
    by_cases hk : nk = pk
    · rw [if_pos hk] at happ
      injection happ with happ
      subst happ
      rw [allKeysF_cons, allKeysF_cons, allKeysF_append, hsingle]
      have p1 : List.Perm ((allKeysF ncs ++ [k2]) ++ allKeysF ts)
          ((k2 :: allKeysF ncs) ++ allKeysF ts) :=
        List.Perm.append_right _ (List.perm_append_singleton _ _)
      exact ((p1.cons nk).trans (List.Perm.swap k2 nk _))
    · rw [if_neg hk] at happ
      cases h1 : appendAtF ncs pk (TagTree.node k2 it []) with
      | some ncs2 =>
        rw [h1] at happ
        injection happ with happ
        subst happ
        rw [allKeysF_cons, allKeysF_cons]
        have ih := appendAtF_perm ncs pk k2 it ncs2 h1
        have p1 : List.Perm (allKeysF ncs2 ++ allKeysF ts)
            ((k2 :: allKeysF ncs) ++ allKeysF ts) := List.Perm.append_right _ ih
        exact ((p1.cons nk).trans (List.Perm.swap k2 nk _))
      | none =>
        rw [h1] at happ
        cases h2 : appendAtF ts pk (TagTree.node k2 it []) with
        | some ts2 =>
          rw [h2] at happ
          injection happ with happ
          subst happ
          rw [allKeysF_cons, allKeysF_cons]
          have ih := appendAtF_perm ts pk k2 it ts2 h2
          have p1 : List.Perm (allKeysF ncs ++ allKeysF ts2)
              (allKeysF ncs ++ k2 :: allKeysF ts) := List.Perm.append_left _ ih
          have p2 : List.Perm (allKeysF ncs ++ k2 :: allKeysF ts)
              (k2 :: (allKeysF ncs ++ allKeysF ts)) := List.perm_middle
          exact (((p1.trans p2).cons nk).trans (List.Perm.swap k2 nk _))
        | none => rw [h2] at happ; exact absurd happ (by simp)
termination_by f _ _ _ _ => sizeOf f
decreasing_by all_goals (simp <;> omega)

theorem findKeyF_appendUnder (forest : List TagTree) (parent : Option String)
    (k2 : String) (it : TagItem)
    (hpar : ∀ pk, parent = some pk → (findKeyF forest pk).isSome = true)
    (hfresh : findKeyF forest k2 = none) :
    ∀ k, findKeyF (appendUnder forest parent (TagTree.node k2 it [])) k =
      if k = k2 then some it else findKeyF forest k := by
  intro k
  cases parent with
  | none =>
    show findKeyF (forest ++ [TagTree.node k2 it []]) k = _
    rw [findKeyF_append]
    by_cases hk2 : k = k2
    · subst hk2
      rw [hfresh]
      rw [findKeyF_cons]
      simp
    · cases hc : findKeyF forest k with
      | some it2 => simp [hk2]
      | none =>
        rw [findKeyF_cons]
        simp [findKeyF_nil, Ne.symm hk2, hk2]
  | some pk =>
    have hps := hpar pk rfl
    rw [← appendAtF_isSome forest pk (TagTree.node k2 it [])] at hps
    obtain ⟨f2, hf2⟩ := Option.isSome_iff_exists.mp hps
    show findKeyF ((appendAtF forest pk (TagTree.node k2 it [])).getD forest) k = _
    rw [hf2]
    exact findKeyF_appendAtF forest pk k2 it f2 hf2 hfresh k

theorem allKeysF_appendUnder_perm (forest : List TagTree) (parent : Option String)
    (k2 : String) (it : TagItem)
    (hpar : ∀ pk, parent = some pk → (findKeyF forest pk).isSome = true) :
    List.Perm (allKeysF (appendUnder forest parent (TagTree.node k2 it [])))
      (k2 :: allKeysF forest) := by
  cases parent with
  | none =>
    show List.Perm (allKeysF (forest ++ [TagTree.node k2 it []])) _
    rw [allKeysF_append]
    rw [show allKeysF [TagTree.node k2 it []] = [k2] from by
      rw [allKeysF_cons]; simp [allKeysF]]
    exact List.perm_append_singleton _ _
  | some pk =>
    have hps := hpar pk rfl
    rw [← appendAtF_isSome forest pk (TagTree.node k2 it [])] at hps
    obtain ⟨f2, hf2⟩ := Option.isSome_iff_exists.mp hps
    show List.Perm (allKeysF ((appendAtF forest pk (TagTree.node k2 it [])).getD forest)) _
    rw [hf2]
    exact appendAtF_perm forest pk k2 it f2 hf2

theorem findKeyF_insertEntry (full_path : String) (dims : List Int) (data_type : String) :
    ∀ (parts : List String) (current_path : String) (parent : Option String)
      (forest : List TagTree),
      (∀ pk, parent = some pk → (findKeyF forest pk).isSome = true) →
      ∀ k, findKeyF (insertEntry full_path dims data_type parts current_path parent forest) k =
        match findKeyF forest k with
        | some it => some it
        | none => entryItem full_path dims data_type parts current_path k := by
  intro parts
  induction parts with
  | nil =>
    intro current_path parent forest hpar k
    show findKeyF forest k = _
    cases findKeyF forest k <;> simp [entryItem]
  | cons part rest ih =>
    intro current_path parent forest hpar k
    show findKeyF
      (if (findKeyF forest (pyJoin current_path part)).isSome then _ else _) k = _
    by_cases hfound : (findKeyF forest (pyJoin current_path part)).isSome = true
    · rw [if_pos hfound]
      rw [ih (pyJoin current_path part) (some (pyJoin current_path part)) forest
        (fun pk hpk => by
          injection hpk with hpk
          exact hpk ▸ hfound) k]
      cases hc : findKeyF forest k with
      | some it => simp
      | none =>
        have hne : pyJoin current_path part ≠ k := by
          intro he
          rw [he, hc] at hfound
          exact absurd hfound (by simp)
        simp [entryItem, hne]
    · rw [if_neg hfound]
      have hfresh : findKeyF forest (pyJoin current_path part) = none :=
        Option.not_isSome_iff_eq_none.mp hfound
      have happ := findKeyF_appendUnder forest parent (pyJoin current_path part)
        (mkPyItem part rest.isEmpty full_path dims data_type) hpar hfresh
      rw [ih (pyJoin current_path part) (some (pyJoin current_path part)) _
        (fun pk hpk => by
          injection hpk with hpk
          rw [← hpk, happ]
          simp) k]
      rw [happ k]
      by_cases hk2 : k = pyJoin current_path part
      · subst hk2
        rw [if_pos rfl, hfresh]
        simp [entryItem]
      · rw [if_neg hk2]
        cases hc : findKeyF forest k with
        | some it => simp
        | none =>
          exact (if_neg (fun he => hk2 (Eq.symm he))).symm

theorem nodup_insertEntry (full_path : String) (dims : List Int) (data_type : String) :
    ∀ (parts : List String) (current_path : String) (parent : Option String)
      (forest : List TagTree),
      (∀ pk, parent = some pk → (findKeyF forest pk).isSome = true) →
      (allKeysF forest).Nodup →
      (allKeysF (insertEntry full_path dims data_type parts current_path parent forest)).Nodup := by
  intro parts
  induction parts with
  | nil => intro current_path parent forest hpar hnd; exact hnd
  | cons part rest ih =>
    intro current_path parent forest hpar hnd
    show (allKeysF
      (if (findKeyF forest (pyJoin current_path part)).isSome then _ else _)).Nodup
    by_cases hfound : (findKeyF forest (pyJoin current_path part)).isSome = true
    · rw [if_pos hfound]
      exact ih (pyJoin current_path part) (some (pyJoin current_path part)) forest
        (fun pk hpk => by injection hpk with hpk; exact hpk ▸ hfound) hnd
    · rw [if_neg hfound]
      have hfresh : findKeyF forest (pyJoin current_path part) = none :=
        Option.not_isSome_iff_eq_none.mp hfound
      have hperm := allKeysF_appendUnder_perm forest parent (pyJoin current_path part)
        (mkPyItem part rest.isEmpty full_path dims data_type) hpar
      have hmem : pyJoin current_path part ∉ allKeysF forest :=
        (findKeyF_eq_none_iff _ _).mp hfresh
      have hnd2 : (allKeysF (appendUnder forest parent
          (TagTree.node (pyJoin current_path part)
            (mkPyItem part rest.isEmpty full_path dims data_type) []))).Nodup :=
        hperm.nodup_iff.mpr (List.nodup_cons.mpr ⟨hmem, hnd⟩)
      have happ := findKeyF_appendUnder forest parent (pyJoin current_path part)
        (mkPyItem part rest.isEmpty full_path dims data_type) hpar hfresh
      exact ih (pyJoin current_path part) (some (pyJoin current_path part)) _
        (fun pk hpk => by
          injection hpk with hpk
          rw [← hpk, happ]
          simp) hnd2

theorem findKeyF_build_go (cat : List (String × TagMeta)) :
    ∀ (f : List TagTree) (k : String),
      findKeyF
        (List.foldl
          (fun forest kv =>
            insertEntry kv.1 kv.2.dimensions kv.2.data_type (chainOf kv.1) "" none forest)
          f cat) k =
        match findKeyF f k with
        | some it => some it
        | none => newItemFor cat k := by
  induction cat with
  | nil =>
    intro f k
    simp only [List.foldl_nil, newItemFor]
    cases findKeyF f k <;> simp
  | cons km cat ih =>
    obtain ⟨kpath, m⟩ := km
    intro f k
    simp only [List.foldl_cons]
    rw [ih _ k]
    rw [findKeyF_insertEntry kpath m.dimensions m.data_type (chainOf kpath) "" none f
      (fun pk hpk => by cases hpk) k]
    cases h1 : findKeyF f k with
    | some it => simp
    | none =>
      simp [newItemFor]

theorem findKeyF_build (cat : List (String × TagMeta)) (k : String) :
    findKeyF (build_tag_tree_model cat) k = newItemFor cat k := by
  have h := findKeyF_build_go cat [] k
  rw [findKeyF_nil] at h
  exact h

theorem nodup_build (cat : List (String × TagMeta)) :
    (allKeysF (build_tag_tree_model cat)).Nodup := by
  rw [build_tag_tree_model]
  have hgen : ∀ f, (allKeysF f).Nodup →
      (allKeysF (List.foldl
        (fun forest kv =>
          insertEntry kv.1 kv.2.dimensions kv.2.data_type (chainOf kv.1) "" none forest)
        f cat)).Nodup := by
    induction cat with
    | nil => intro f hf; exact hf
    | cons km cat ih =>
      intro f hf
      exact ih _ (nodup_insertEntry _ _ _ _ _ _ _ (fun pk hpk => by cases hpk) hf)
  exact hgen [] (by simp [allKeysF])

/-- C10: the item stored under each node_map key of the built tree is
exactly newItemFor: the first catalog entry whose cumulative-key walk
passes through the key materializes its node, and that node carries the
(full path, dimensions) payload, the tooltip and the dimension-formatted
label exactly when the first such walk position is the final segment of
the entry being inserted; a key first materialized as an intermediate
position keeps its bare label and never receives payload or tooltip,
whatever later entries do. -/
theorem node_item_build_eq_newItemFor (cat : List (String × TagMeta)) (k : String) :
    findKeyF (build_tag_tree_model cat) k = newItemFor cat k :=
  findKeyF_build cat k


/-- the entries of the depth-first leaf flattening of a forest with
distinct node_map keys are exactly the payload and tooltip pairs of the
items stored under some key. -/
theorem mem_dataLeavesF :
    ∀ (f : List TagTree), (allKeysF f).Nodup →
      ∀ (p : (String × List Int) × Option String),
        (p ∈ dataLeavesF f ↔
          ∃ k it', findKeyF f k = some it' ∧ it'.userData = some p.1 ∧ it'.toolTip = p.2)
  | [], _, p => by
    simp only [dataLeavesF]
    simp [findKeyF_nil]
  | TagTree.node nk nit ncs :: ts, hnd, p => by
    rw [allKeysF_cons] at hnd
    obtain ⟨hnmem, hnd2⟩ := List.nodup_cons.mp hnd
    obtain ⟨hndcs, hndts, hdisj⟩ := List.nodup_append.mp hnd2
    have hnmem1 : nk ∉ allKeysF ncs := fun h => hnmem (List.mem_append.mpr (Or.inl h))
    have hnmem2 : nk ∉ allKeysF ts := fun h => hnmem (List.mem_append.mpr (Or.inr h))
    have IHcs := mem_dataLeavesF ncs hndcs p
    have IHts := mem_dataLeavesF ts hndts p
    rw [dataLeavesF.eq_def]
    simp only [List.mem_append]
    constructor
    · rintro ((hp | hp) | hp)
      · cases hud : nit.userData with
        | none => rw [hud] at hp; simp at hp
        | some d =>
          rw [hud] at hp
          simp only [List.mem_singleton] at hp
          subst hp
          refine ⟨nk, nit, ?_, hud, rfl⟩
          rw [findKeyF_cons]
          simp
      · obtain ⟨k, it', h, hu, ht⟩ := IHcs.mp hp
        have hkne : nk ≠ k := fun he =>
          hnmem1 (he ▸ (findKeyF_isSome_iff ncs k).mp (by simp [h]))
        refine ⟨k, it', ?_, hu, ht⟩
        rw [findKeyF_cons, if_neg hkne, h]
      · obtain ⟨k, it', h, hu, ht⟩ := IHts.mp hp
        have hmemts : k ∈ allKeysF ts := (findKeyF_isSome_iff ts k).mp (by simp [h])
        have hkne : nk ≠ k := fun he => hnmem2 (he ▸ hmemts)
        have hcs : findKeyF ncs k = none :=
          (findKeyF_eq_none_iff ncs k).mpr (fun hmemcs => hdisj hmemcs hmemts)
        refine ⟨k, it', ?_, hu, ht⟩
        rw [findKeyF_cons, if_neg hkne, hcs, h]
    · rintro ⟨k, it', h, hu, ht⟩
      rw [findKeyF_cons] at h
      by_cases hkk : nk = k
      · rw [if_pos hkk] at h
        injection h with h
        subst h
        refine Or.inl (Or.inl ?_)
        rw [hu]
        simp [ht]
      · rw [if_neg hkk] at h
        cases hc : findKeyF ncs k with
        | some it2 =>
          rw [hc] at h
          have h2 : it2 = it' := by simpa using h
          subst h2
          exact Or.inl (Or.inr (IHcs.mpr ⟨k, it2, hc, hu, ht⟩))
        | none =>
          rw [hc] at h
          have h2 : findKeyF ts k = some it' := by simpa using h
          exact Or.inr (IHts.mpr ⟨k, it', h2, hu, ht⟩)
termination_by f _ _ => sizeOf f
decreasing_by all_goals (simp <;> omega)

theorem entryItem_eq_none (full_path : String) (dims : List Int) (data_type : String) :
    ∀ (parts : List String) (cur k : String), k ∉ cumKeys cur parts →
      entryItem full_path dims data_type parts cur k = none := by
  intro parts
  induction parts with
  | nil => intro cur k h; rfl
  | cons part rest ih =>
    intro cur k h
    simp only [cumKeys, List.mem_cons] at h
    push_neg at h
    obtain ⟨h1, h2⟩ := h
    show (if pyJoin cur part = k
        then some (mkPyItem part rest.isEmpty full_path dims data_type)
        else entryItem full_path dims data_type rest (pyJoin cur part) k) = none
    rw [if_neg (fun he => h1 he.symm)]
    exact ih _ _ h2

theorem entryItem_data (full_path : String) (dims : List Int) (data_type : String) :
    ∀ (parts : List String) (cur k : String) (it' : TagItem) (d : String × List Int),
      entryItem full_path dims data_type parts cur k = some it' →
      it'.userData = some d →
      d = (full_path, dims) ∧
        it'.toolTip = some (full_path ++ "(" ++ data_type ++ ")") := by
  intro parts
  induction parts with
  | nil => intro cur k it' d h hd; exact absurd h (by simp [entryItem])
  | cons part rest ih =>
    intro cur k it' d h hd
    rw [show entryItem full_path dims data_type (part :: rest) cur k =
        (if pyJoin cur part = k
         then some (mkPyItem part rest.isEmpty full_path dims data_type)
         else entryItem full_path dims data_type rest (pyJoin cur part) k) from rfl] at h
    by_cases hk : pyJoin cur part = k
    · rw [if_pos hk] at h
      injection h with h
      subst h
      cases rest with
      | nil =>
        simp only [mkPyItem, List.isEmpty_nil, if_pos rfl] at hd ⊢
        refine ⟨?_, rfl⟩
        injection hd with hd
        exact hd.symm
      | cons r rs =>
        simp [mkPyItem] at hd
    · rw [if_neg hk] at h
      exact ih _ _ _ _ h hd

theorem entryItem_final (full_path : String) (dims : List Int) (data_type : String) :
    ∀ (parts : List String) (cur : String), parts ≠ [] →
      memStr (lastSeg (cumKeys cur parts)) (cumKeys cur parts).dropLast = false →
      entryItem full_path dims data_type parts cur (lastSeg (cumKeys cur parts)) =
        some (mkPyItem (lastSeg parts) true full_path dims data_type) := by
  intro parts
  induction parts with
  | nil => intro cur h; exact absurd rfl h
  | cons part rest ih =>
    intro cur _ hmem
    cases rest with
    | nil =>
      show (if pyJoin cur part = lastSeg (cumKeys cur [part])
          then some (mkPyItem part (List.isEmpty []) full_path dims data_type)
          else entryItem full_path dims data_type [] (pyJoin cur part)
            (lastSeg (cumKeys cur [part]))) = _
      have hck : cumKeys cur [part] = [pyJoin cur part] := rfl
      rw [hck]
      simp [lastSeg]
    | cons r rs =>
      have hck : cumKeys cur (part :: r :: rs) =
          pyJoin cur part :: cumKeys (pyJoin cur part) (r :: rs) := rfl
      have hcknn : cumKeys (pyJoin cur part) (r :: rs) ≠ [] := by simp [cumKeys]
      obtain ⟨c1, cr, hc1⟩ := List.exists_cons_of_ne_nil hcknn
      rw [hck, hc1] at hmem
      rw [lastSeg_cons_cons] at hmem
      rw [show (pyJoin cur part :: c1 :: cr).dropLast =
          pyJoin cur part :: (c1 :: cr).dropLast from rfl] at hmem
      simp only [memStr, Bool.or_eq_false_iff] at hmem
      obtain ⟨hne, hmem2⟩ := hmem
      have hne2 : lastSeg (c1 :: cr) ≠ pyJoin cur part := by
        intro he
        rw [he] at hne
        simp at hne
      show (if pyJoin cur part = lastSeg (cumKeys cur (part :: r :: rs))
          then some (mkPyItem part (List.isEmpty (r :: rs)) full_path dims data_type)
          else entryItem full_path dims data_type (r :: rs) (pyJoin cur part)
            (lastSeg (cumKeys cur (part :: r :: rs)))) = _
      rw [hck, hc1, lastSeg_cons_cons]
      rw [if_neg (fun he => hne2 he.symm)]
      have := ih (pyJoin cur part) (by simp) (by rw [hc1]; exact hmem2)
      rw [hc1] at this
      rw [lastSeg_cons_cons]
      exact this

theorem newItemFor_data {cat : List (String × TagMeta)} {k : String} {it' : TagItem}
    {d : String × List Int}
    (h : newItemFor cat k = some it') (hd : it'.userData = some d) :
    ∃ km ∈ cat, d = (km.1, km.2.dimensions) ∧
      it'.toolTip = some (km.1 ++ "(" ++ km.2.data_type ++ ")") := by
  induction cat with
  | nil => simp [newItemFor] at h
  | cons km cat ih =>
    obtain ⟨kpath, m⟩ := km
    rw [show newItemFor ((kpath, m) :: cat) k =
        (match entryItem kpath m.dimensions m.data_type (chainOf kpath) "" k with
         | some it => some it
         | none => newItemFor cat k) from rfl] at h
    cases he : entryItem kpath m.dimensions m.data_type (chainOf kpath) "" k with
    | some it =>
      rw [he] at h
      have h2 : it = it' := by simpa using h
      subst h2
      obtain ⟨hd1, hd2⟩ :=
        entryItem_data kpath m.dimensions m.data_type (chainOf kpath) "" k it d he hd
      exact ⟨(kpath, m), by simp, hd1, hd2⟩
    | none =>
      rw [he] at h
      have h2 : newItemFor cat k = some it' := by simpa using h
      obtain ⟨km2, hmem, h3, h4⟩ := ih h2
      exact ⟨km2, by simp [hmem], h3, h4⟩

theorem newItemFor_tracesOK :
    ∀ (cat : List (String × TagMeta)),
      tracesOK (cat.map fun km => cumKeys "" (chainOf km.1)) = true →
      ∀ km ∈ cat,
        newItemFor cat (lastSeg (cumKeys "" (chainOf km.1))) =
          some (mkPyItem (lastSeg (chainOf km.1)) true km.1 km.2.dimensions
            km.2.data_type) := by
  intro cat
  induction cat with
  | nil => intro _ km h; cases h
  | cons km0 cat ih =>
    intro hn km hmem
    obtain ⟨kpath0, m0⟩ := km0
    simp only [List.map_cons, tracesOK, Bool.and_eq_true] at hn
    obtain ⟨⟨hown, hall⟩, hrest⟩ := hn
    rcases List.mem_cons.mp hmem with heq | hmem2
    · subst heq
      show (match entryItem kpath0 m0.dimensions m0.data_type (chainOf kpath0) ""
          (lastSeg (cumKeys "" (chainOf kpath0))) with
        | some it => some it
        | none => newItemFor cat (lastSeg (cumKeys "" (chainOf kpath0)))) = _
      rw [entryItem_final kpath0 m0.dimensions m0.data_type (chainOf kpath0) ""
        (chainOf_ne_nil kpath0) (by simpa using hown)]
    · have htr : cumKeys "" (chainOf km.1) ∈
          cat.map (fun km => cumKeys "" (chainOf km.1)) :=
        List.mem_map_of_mem _ hmem2
      have hfalse := List.all_eq_true.mp hall _ htr
      have hnone := entryItem_eq_none kpath0 m0.dimensions m0.data_type (chainOf kpath0)
        "" _ ((memStr_eq_false_iff _ _).mp (by simpa using hfalse))
      show (match entryItem kpath0 m0.dimensions m0.data_type (chainOf kpath0) ""
          (lastSeg (cumKeys "" (chainOf km.1))) with
        | some it => some it
        | none => newItemFor cat (lastSeg (cumKeys "" (chainOf km.1)))) = _
      rw [hnone]
      exact ih hrest km hmem2

/-- C1 amended: for every catalog whose cumulative-key walks are ordered
(no entry has its final cumulative key inside an earlier entry walk, and
each entry meets its own final key only at its final position; extractor
output always has this shape), the depth-first flattening of the
metadata-carrying nodes of the built tree has exactly the catalog
entries: each full dotted path with its dimensions payload and its
path(dataType) tooltip. -/
theorem build_round_trip (cat : List (String × TagMeta))
    (hord : tracesOK (cat.map fun km => cumKeys "" (chainOf km.1)) = true) :
    ∀ p, p ∈ dataLeavesF (build_tag_tree_model cat) ↔
      p ∈ cat.map fun km => leafEntry km.1 km.2 := by
  intro p
  obtain ⟨p1, p2⟩ := p
  rw [mem_dataLeavesF _ (nodup_build cat) (p1, p2)]
  constructor
  · rintro ⟨k, it', h, hu, ht⟩
    rw [findKeyF_build cat k] at h
    obtain ⟨⟨kpath, m⟩, hmem, hd1, hd2⟩ := newItemFor_data h hu
    refine List.mem_map.mpr ⟨(kpath, m), hmem, ?_⟩
    simp only [leafEntry, Prod.mk.injEq]
    exact ⟨hd1.symm, (ht.symm.trans hd2).symm⟩
  · intro hp
    obtain ⟨⟨kpath, m⟩, hmem, heq⟩ := List.mem_map.mp hp
    obtain ⟨h1, h2⟩ := Prod.mk.injEq .. ▸ heq
    refine ⟨lastSeg (cumKeys "" (chainOf kpath)),
      mkPyItem (lastSeg (chainOf kpath)) true kpath m.dimensions m.data_type, ?_, ?_, ?_⟩
    · rw [findKeyF_build]
      exact newItemFor_tracesOK cat hord (kpath, m) hmem
    · exact congrArg some h1
    · exact h2


/-- counterexample to the unconditioned round trip: in catalog
[(A.B, m1), (A, m2)] the later entry A finds its key already materialized
as a bare group node while inserting A.B, so it is dropped: A is a catalog
key but not a leaf path of the built tree. -/
theorem build_round_trip_cex :
    "A" ∈ cexCatalog.map Prod.fst ∧
    "A" ∉ (dataLeavesF (build_tag_tree_model cexCatalog)).map (fun e => e.1.1) := by
  refine ⟨by decide, ?_⟩
  have h1 : chainOf "A.B" = ["A", "B"] := by decide
  have h2 : chainOf "A" = ["A"] := by decide
  have hb : build_tag_tree_model cexCatalog =
      [TagTree.node "A" ⟨"A", none, none⟩
        [TagTree.node "A.B" ⟨"B", some ("A.B", [0, 0, 0]), some "A.B(DINT)"⟩ []]] := by
    simp [cexCatalog, build_tag_tree_model, insertEntry, findKeyF, appendAtF, appendUnder,
      pyJoin, mkPyItem, h1, h2, format_dimension_label, joinComma, splitDot]
  rw [hb]
  simp [dataLeavesF]

theorem build_round_trip_witness :
    tracesOK (okCatalog.map fun km => cumKeys "" (chainOf km.1)) = true ∧
    (("A.B", [5, 0, 0]), some "A.B(DINT)") ∈
      dataLeavesF (build_tag_tree_model okCatalog) :=
  ⟨by decide, (build_round_trip okCatalog (by decide) _).mpr (by decide)⟩


end OEE
